import Mathlib

/-!
# aresize: resize policy, image pipeline and batch dispatch

A shallow embedding of `main.go`:

* `resizeImage` (lines 144-166): the resize policy, with the `float64` arithmetic of
  lines 153/155 modelled exactly (IEEE-754 binary64, round to nearest, ties to even);
* `copy` (lines 168-189) and `copyOrResizeImageFile` (lines 74-142): the per-file pipeline,
  over a filesystem that maps paths to bytes, the outcomes of the library calls being
  supplied by an oracle record;
* the dispatch loop of `main` (lines 50-71): a transition system whose actions are the
  launch of a goroutine, the completion of a goroutine and the return of `wg.Wait`.
-/

set_option maxRecDepth 100000

namespace Aresize

/-! ## float64 arithmetic -/

/-- A non-negative finite binary floating point value `man * 2 ^ exp`. -/
structure F64 where
  man : Nat
  exp : Int
deriving DecidableEq, Repr

/-- The rational number a float stands for. -/
def F64.toRat (x : F64) : ℚ := (x.man : ℚ) * (2 : ℚ) ^ x.exp

/-- Round `m / 2 ^ s` to the nearest natural number, ties to the even one. -/
def rne (m s : Nat) : Nat :=
  let q := m / 2 ^ s
  let r := m % 2 ^ s
  if 2 * r < 2 ^ s then q
  else if 2 ^ s < 2 * r then q + 1
  else if q % 2 = 0 then q else q + 1

/-- Bit length by halving, with explicit fuel. -/
def bitLenAux : Nat → Nat → Nat
  | 0, _ => 0
  | fuel + 1, n => if n = 0 then 0 else bitLenAux fuel (n / 2) + 1

/-- Number of binary digits of `n` (`0` for `0`). -/
def bitLen (n : Nat) : Nat := bitLenAux n n

/-- The float64 nearest to `(a / b) * 2 ^ e` (ties to even), for `b > 0`.  The quotient is
computed to more than 64 bits with a sticky bit for the remainder and then rounded to a
53 bit mantissa.  The exponent is unbounded: every value that arises from Go `int`
operands lies far inside the normal range of float64. -/
def fround (a b : Nat) (e : Int) : F64 :=
  let k := bitLen b + 64
  let n := a * 2 ^ k
  let m := 2 * (n / b) + (if n % b = 0 then 0 else 1)
  let s := bitLen m - 53
  ⟨rne m s, e - k - 1 + s⟩

/-- The conversion `float64(n)` of a non-negative `int`. -/
def F64.ofInt (n : Nat) : F64 := fround n 1 0

/-- The float64 product `x * y`. -/
def F64.mul (x y : F64) : F64 := fround (x.man * y.man) 1 (x.exp + y.exp)

/-- The float64 quotient `x / y`, for `y` different from zero. -/
def F64.div (x y : F64) : F64 := fround x.man y.man (x.exp - y.exp)

/-- The conversion `int(math.Round(x))`: nearest integer, halves away from zero. -/
def F64.round (x : F64) : Nat :=
  if 0 ≤ x.exp then x.man * 2 ^ x.exp.toNat
  else
    let s := (-x.exp).toNat
    if 2 ^ s ≤ 2 * (x.man % 2 ^ s) then x.man / 2 ^ s + 1 else x.man / 2 ^ s

/-! ## Resize policy -/

/-- The expression `int(math.Round(float64(l) / float64(a) * float64(b)))` of lines 153
and 155. -/
def scaleSide (l a b : Nat) : Nat :=
  (((F64.ofInt l).div (F64.ofInt a)).mul (F64.ofInt b)).round

/-- The function `resizeImage` (lines 144-166).  `X` and `Y` are `src.Bounds().Max.X` and
`src.Bounds().Max.Y`; the result is the `bool` together with the bounds `(newX, newY)` of
the image `dst` that is returned (`none` for `nil`).  Dimensions and target are
non-negative; in the branch that divides, the divisor is then positive. -/
def resizeImage (X Y longSideLength : Nat) : Bool × Option (Nat × Nat) :=
  if X ≤ longSideLength ∧ Y ≤ longSideLength then
    (false, none)
  else
    let newX := longSideLength
    let newY := longSideLength
    if X ≥ Y then
      (true, some (newX, scaleSide longSideLength X Y))
    else
      (true, some (scaleSide longSideLength Y X, newY))

/-- Round half away from zero of the exact quotient `n / d` of naturals (`d > 0`). -/
def roundHalfAway (n d : Nat) : Nat := (2 * n + d) / (2 * d)

/-- The target dimensions in the words of the specification: the larger side becomes `T`,
the other `round (T * min / max)` of the exact quotient. -/
def specResizeTo (w h T : Nat) : Nat × Nat :=
  if w ≥ h then (T, roundHalfAway (T * h) w) else (roundHalfAway (T * w) h, T)

/-- An integer `d` nearest to the exact quotient `n / m`: `|d - n / m| ≤ 1 / 2`. -/
def Nearest (d n m : Nat) : Prop := 2 * n ≤ 2 * m * d + m ∧ 2 * m * d ≤ 2 * n + m

instance (d n m : Nat) : Decidable (Nearest d n m) := by
  unfold Nearest; infer_instance

/-! ## Filesystem and image pipeline -/

/-- A file path, as the string the program passes to `os.Open` and `os.Create`. -/
abbrev PathName := String

/-- The elements of a path between its separators, as `strings.Split(path, "/")`. -/
def splitSlash : List Char → List (List Char)
  | [] => [[]]
  | c :: cs =>
    if c = '/' then [] :: splitSlash cs
    else
      match splitSlash cs with
      | [] => [[c]]
      | e :: es => (c :: e) :: es

/-- One element of a path read by `filepath.Clean`; `stack` holds the elements kept so
far, the last one first.  Empty elements and `.` are dropped; `..` removes the element
before it, is kept at the start of a path that is not rooted, and is dropped at the root. -/
def cleanStep (rooted : Bool) (stack : List (List Char)) (e : List Char) :
    List (List Char) :=
  if e = [] ∨ e = ['.'] then stack
  else if e = ['.', '.'] then
    match stack with
    | [] => if rooted then [] else [e]
    | top :: rest => if top = ['.', '.'] then e :: stack else rest
  else e :: stack

/-- The elements joined by single separators. -/
def joinSlash : List (List Char) → List Char
  | [] => []
  | [e] => e
  | e :: es => e ++ '/' :: joinSlash es

/-- The function `filepath.Clean` of the Go standard library (Unix): the shortest path
equivalent to `path` by purely lexical processing; the empty path becomes `.`. -/
def filepathClean (path : String) : String :=
  if path.data = [] then "."
  else
    let rooted := path.data.head? = some '/'
    let body := joinSlash ((splitSlash path.data).foldl (cleanStep rooted) []).reverse
    if rooted then String.mk ('/' :: body)
    else if body = [] then "."
    else String.mk body

/-- The function `filepath.Dir` of the Go standard library (Unix): the path up to and
including its last separator, cleaned. -/
def filepathDir (path : String) : String :=
  filepathClean (String.mk (path.data.reverse.dropWhile (fun c => c ≠ '/')).reverse)

/-- The function `filepath.Base` of the Go standard library (Unix): the last element of
the path, trailing separators removed; `.` for the empty path and `/` for a path of
separators only. -/
def filepathBase (path : String) : String :=
  if path.data = [] then "."
  else
    let stripped := path.data.reverse.dropWhile (fun c => c = '/')
    let last := (stripped.takeWhile (fun c => c ≠ '/')).reverse
    if last = [] then "/" else String.mk last

/-- The function `filepath.Join` of the Go standard library (Unix) for two elements: the
elements from the first non-empty one on, joined by a separator and cleaned. -/
def filepathJoin (a b : String) : String :=
  if a ≠ "" then filepathClean (a ++ "/" ++ b)
  else if b ≠ "" then filepathClean b
  else ""

/-- The destination path of line 58:
`filepath.Join(filepath.Dir(filePath), fmt.Sprintf("%s%s", pre, filepath.Base(filePath)))`. -/
def dstFilePath (pre : String) (filePath : PathName) : PathName :=
  filepathJoin (filepathDir filePath) (pre ++ filepathBase filePath)

/-- The filesystem: the bytes of each file that exists. -/
abbrev FileSystem := PathName → Option (List Nat)

/-- The effect of `os.Create p` when it succeeds: the file exists and is empty. -/
def FileSystem.create (fs : FileSystem) (p : PathName) : FileSystem :=
  fun x => if x = p then some [] else fs x

/-- Writing `bytes` at the end of the file `p`. -/
def FileSystem.append (fs : FileSystem) (p : PathName) (bytes : List Nat) : FileSystem :=
  fun x => if x = p then some ((fs x).getD [] ++ bytes) else fs x

/-- The lines printed by the pipeline, one constructor for each print statement. -/
inductive LogLine where
  | resizeErrOpen (src : PathName)
  | resizeErrDecodeJPG (src : PathName)
  | resizeErrDecodePNG (src : PathName)
  | resizeErrMime (src : PathName) (mtype : String)
  | resizing (src : PathName)
  | copyNoResize (src dst : PathName)
  | resizeErrCreate (dst : PathName)
  | writing (dst : PathName)
  | copyErrOpen (src : PathName)
  | copyErrCreate (dst : PathName)
  | copyErrCopy (src dst : PathName)
  | copied (n : Nat) (src dst : PathName)
deriving DecidableEq, Repr

/-- The lines that carry the `[Error]` tag. -/
def LogLine.isError : LogLine → Bool
  | .resizeErrOpen _ => true
  | .resizeErrDecodeJPG _ => true
  | .resizeErrDecodePNG _ => true
  | .resizeErrMime _ _ => true
  | .resizeErrCreate _ => true
  | .copyErrOpen _ => true
  | .copyErrCreate _ => true
  | .copyErrCopy _ _ => true
  | _ => false

/-- What a run of the pipeline does that others can observe, in order. -/
inductive Event where
  | log (l : LogLine)
  | done
deriving DecidableEq, Repr

/-- Number of `wg.Done()` calls in a trace. -/
def doneCount (evs : List Event) : Nat := evs.count Event.done

/-- The error lines of a trace. -/
def errorLines (evs : List Event) : List LogLine :=
  evs.filterMap fun e =>
    match e with
    | .log l => if l.isError then some l else none
    | .done => none

/-- The outcome of every library call of one job, as the environment decides it. -/
structure Outcome where
  /-- The call `os.Open(srcFilePath)` of line 75 returns an error. -/
  openErr : Bool
  /-- The string `mtype.String()` of the sniffed content type. -/
  mtype : String
  /-- The call `jpeg.Decode` or `png.Decode` returns an error. -/
  decodeErr : Bool
  /-- The value `srcImage.Bounds().Max.X`. -/
  X : Nat
  /-- The value `srcImage.Bounds().Max.Y`. -/
  Y : Nat
  /-- The call `os.Create(dstFilePath)` of line 123 returns an error. -/
  createErr : Bool
  /-- The call `jpeg.Encode` or `png.Encode` returns an error. -/
  encodeErr : Bool
  /-- The bytes the encoder has written to `dstFile` when it returns. -/
  encoded : List Nat
  /-- The call `os.Open(srcPath)` of line 169 returns an error. -/
  copyOpenErr : Bool
  /-- The call `os.Create(dstPath)` of line 176 returns an error. -/
  copyCreateErr : Bool
  /-- The call `io.Copy` returns an error, after `copiedBeforeErr` bytes. -/
  copyErr : Bool
  copiedBeforeErr : Nat

/-- The function `copy` (lines 168-189). Opening fails when the environment says so or
the file does not exist; `io.Copy` reads the source after the destination was created. -/
def copy (o : Outcome) (srcPath dstPath : PathName) (fs : FileSystem) :
    FileSystem × List Event :=
  if o.copyOpenErr ∨ (fs srcPath).isNone then
    (fs, [.log (.copyErrOpen srcPath)])
  else if o.copyCreateErr then
    (fs, [.log (.copyErrCreate dstPath)])
  else
    let fs1 := fs.create dstPath
    let data := (fs1 srcPath).getD []
    if o.copyErr then
      (fs1.append dstPath (data.take o.copiedBeforeErr), [.log (.copyErrCopy srcPath dstPath)])
    else
      (fs1.append dstPath data, [.log (.copied data.length srcPath dstPath)])

/-- Lines 113-141 of `copyOrResizeImageFile`: what follows a successful decode. -/
def afterDecode (longSideLength : Nat) (o : Outcome) (srcFilePath dstFilePath : PathName)
    (fs : FileSystem) : FileSystem × List Event :=
  let needResize := (resizeImage o.X o.Y longSideLength).1
  if !needResize then
    let r := copy o srcFilePath dstFilePath fs
    (r.1, [.log (.resizing srcFilePath), .log (.copyNoResize srcFilePath dstFilePath)]
      ++ r.2 ++ [.done])
  else if o.createErr then
    (fs, [.log (.resizing srcFilePath), .log (.resizeErrCreate dstFilePath), .done])
  else
    let fs1 := fs.create dstFilePath
    let fs2 :=
      if o.mtype = "image/jpeg" then fs1.append dstFilePath o.encoded
      else if o.mtype = "image/png" then fs1.append dstFilePath o.encoded
      else fs1
    (fs2, [.log (.resizing srcFilePath), .log (.writing dstFilePath), .done])

/-- The function `copyOrResizeImageFile` (lines 74-142): the filesystem after the call
and the trace of log lines and `wg.Done()` calls.  The value returned by the encoder
(`o.encodeErr`) is not looked at, as in lines 134 and 136. -/
def copyOrResizeImageFile (longSideLength : Nat) (o : Outcome)
    (srcFilePath dstFilePath : PathName) (fs : FileSystem) : FileSystem × List Event :=
  if o.openErr ∨ (fs srcFilePath).isNone then
    (fs, [.log (.resizeErrOpen srcFilePath), .done])
  else if o.mtype = "image/jpeg" then
    if o.decodeErr then
      (fs, [.log (.resizeErrDecodeJPG srcFilePath), .done])
    else afterDecode longSideLength o srcFilePath dstFilePath fs
  else if o.mtype = "image/png" then
    if o.decodeErr then
      (fs, [.log (.resizeErrDecodePNG srcFilePath), .done])
    else afterDecode longSideLength o srcFilePath dstFilePath fs
  else
    (fs, [.log (.resizeErrMime srcFilePath o.mtype), .done])

/-! ## Dispatch loop of `main` -/

/-- The flags the dispatch loop and the jobs read. -/
structure Config where
  pre : String
  longestSide : Nat
  concurrentWorkers : Int

/-- A launched goroutine: the value of `fileCount` at its launch and its two paths. -/
structure Job where
  fileCount : Nat
  src : PathName
  dst : PathName
deriving DecidableEq, Repr

/-- Where the main goroutine stands. -/
inductive PC where
  /-- At the head of the `for` loop of line 57. -/
  | loop
  /-- Blocked in `wg.Wait()` of line 65. -/
  | barrier
  /-- Blocked in `wg.Wait()` of line 71. -/
  | finalWait
  /-- Returned from `main`. -/
  | exited
  /-- Terminated by `log.Fatalf` of line 52. -/
  | fatal
deriving DecidableEq, Repr

/-- State of the whole program during the dispatch loop.  The fields `current` and
`closed` are history: the jobs launched since `wg.Wait` last returned, and the groups
of jobs that a returning `wg.Wait` of line 65 has closed, oldest first. -/
structure Sched where
  pending : List PathName
  currentCount : Nat
  fileCount : Nat
  wg : Int
  pc : PC
  running : List Job
  fs : FileSystem
  current : List Job
  closed : List (List Job)

/-- The state at line 50, for the matched `files`. -/
def Sched.init (files : List PathName) (fs : FileSystem) : Sched where
  pending := files
  currentCount := 0
  fileCount := 1
  wg := 0
  pc := if files.length ≤ 0 then .fatal else .loop
  running := []
  fs := fs
  current := []
  closed := []

/-- The chunks dispatched so far: the closed ones and the one being filled. -/
def Sched.chunks (s : Sched) : List (List Job) :=
  if s.current = [] then s.closed else s.closed ++ [s.current]

/-- Every job launched so far, in launch order. -/
def Sched.launched (s : Sched) : List Job := s.closed.flatten ++ s.current

/-- What can happen next. -/
inductive Action where
  /-- One iteration of the loop body, lines 58-67, up to a possible `wg.Wait`. -/
  | launch
  /-- The range loop is exhausted; control reaches line 71. -/
  | loopEnd
  /-- A running goroutine executes `copyOrResizeImageFile` to its end. -/
  | finish (j : Job)
  /-- The pending `wg.Wait()` returns. -/
  | waitReturn
deriving DecidableEq, Repr

/-- One transition; `none` when the action is not enabled.  `out n` is the outcome the
environment gives to the job launched with `fileCount = n`. -/
def step (cfg : Config) (out : Nat → Outcome) (s : Sched) : Action → Option Sched
  | .launch =>
    match s.pc, s.pending with
    | .loop, filePath :: rest =>
      let job : Job := ⟨s.fileCount, filePath, dstFilePath cfg.pre filePath⟩
      some { s with
        pending := rest
        currentCount := s.currentCount + 1
        wg := s.wg + 1
        running := job :: s.running
        current := s.current ++ [job]
        fileCount := s.fileCount + 1
        pc := if ((s.currentCount + 1 : Nat) : Int) ≥ cfg.concurrentWorkers then .barrier
              else .loop }
    | _, _ => none
  | .loopEnd =>
    match s.pc, s.pending with
    | .loop, [] => some { s with pc := .finalWait }
    | _, _ => none
  | .finish j =>
    if j ∈ s.running then
      let r := copyOrResizeImageFile cfg.longestSide (out j.fileCount) j.src j.dst s.fs
      some { s with
        running := s.running.erase j
        fs := r.1
        wg := s.wg - (doneCount r.2 : Nat) }
    else none
  | .waitReturn =>
    if s.wg = 0 then
      match s.pc with
      | .barrier =>
        some { s with
          currentCount := 0
          closed := s.closed ++ [s.current]
          current := []
          pc := .loop }
      | .finalWait => some { s with pc := .exited }
      | _ => none
    else none

/-- Run a sequence of actions; `none` as soon as one is not enabled. -/
def exec (cfg : Config) (out : Nat → Outcome) : Sched → List Action → Option Sched
  | s, [] => some s
  | s, a :: as =>
    match step cfg out s a with
    | none => none
    | some s1 => exec cfg out s1 as

/-- The jobs the loop builds for the paths `ps` when `fileCount` starts at `n`. -/
def jobsFrom (pre : String) : Nat → List PathName → List Job
  | _, [] => []
  | n, p :: ps => ⟨n, p, dstFilePath pre p⟩ :: jobsFrom pre (n + 1) ps

/-- The invariant of the dispatch loop, for the matched `files`. -/
structure Inv (cfg : Config) (files : List PathName) (s : Sched) : Prop where
  wg_eq : s.wg = (s.running.length : Int)
  running_le : s.running.length ≤ s.currentCount
  running_sub : ∀ j ∈ s.running, j ∈ s.current
  current_len : s.current.length = s.currentCount
  current_range : ∀ j ∈ s.current,
    s.fileCount ≤ j.fileCount + s.currentCount ∧ j.fileCount < s.fileCount
  closed_range : ∀ ch ∈ s.closed, ∀ j ∈ ch, j.fileCount + s.currentCount < s.fileCount
  closed_len : ∀ ch ∈ s.closed, (ch.length : Int) = cfg.concurrentWorkers
  count_le : (s.currentCount : Int) ≤ cfg.concurrentWorkers
  loop_lt : s.pc = .loop → (s.currentCount : Int) < cfg.concurrentWorkers
  barrier_eq : s.pc = .barrier → (s.currentCount : Int) = cfg.concurrentWorkers
  done_pending : s.pc = .finalWait ∨ s.pc = .exited → s.pending = []
  done_running : s.pc = .exited ∨ s.pc = .fatal → s.running = []
  launched_eq : s.launched ++ jobsFrom cfg.pre s.fileCount s.pending = jobsFrom cfg.pre 1 files

/-! ## A small batch, used to instantiate the statements below -/

/-- Two workers, the default prefix and the default target. -/
def exampleConfig : Config := ⟨"resized_", 2560, 2⟩

/-- Three matched files. -/
def exampleFiles : List PathName :=
  ["photos/a.jpg", "photos/b.png", "photos/c.jpg"]

/-- Only the first file exists; the jobs of the other two fail to open their source. -/
def exampleFs : FileSystem := fun p => if p = "photos/a.jpg" then some [1, 2, 3] else none

/-- Every job sniffs a JPEG of 800 by 600 and no call reports an error by itself. -/
def exampleOutcome : Nat → Outcome := fun _ =>
  ⟨false, "image/jpeg", false, 800, 600, false, false, [], false, false, false, 0⟩

/-- The job of the example batch launched with the given `fileCount` for the given name. -/
def exampleJob (n : Nat) (base : String) : Job :=
  ⟨n, "photos/" ++ base, "photos/resized_" ++ base⟩

/-- A complete run: two launches, both jobs finish in reverse order, the barrier opens,
the third job is launched and finishes, and the final wait returns. -/
def exampleRun : List Action :=
  [.launch, .launch, .finish (exampleJob 2 "b.png"), .finish (exampleJob 1 "a.jpg"),
    .waitReturn, .launch, .loopEnd, .finish (exampleJob 3 "c.jpg"), .waitReturn]

/-- The first two actions of `exampleRun`: two jobs are in flight. -/
def exampleTwoLaunches : List Action := [.launch, .launch]

/-! ## Accuracy of the float64 model -/

theorem bitLenAux_spec (fuel : Nat) : ∀ n, n ≤ fuel → 0 < n →
    2 ^ (bitLenAux fuel n - 1) ≤ n ∧ n < 2 ^ bitLenAux fuel n ∧ 0 < bitLenAux fuel n := by
  induction fuel with
  | zero => intro n h1 h2; omega
  | succ f ih =>
    intro n h1 h2
    have hn : n ≠ 0 := by omega
    simp only [bitLenAux, hn, if_false]
    by_cases h : n / 2 = 0
    · have : n = 1 := by omega
      subst this
      cases f <;> simp [bitLenAux]
    · obtain ⟨a, b, c⟩ := ih (n / 2) (by omega) (by omega)
      refine ⟨?_, ?_, by omega⟩
      · have e : bitLenAux f (n / 2) + 1 - 1 = (bitLenAux f (n / 2) - 1) + 1 := by omega
        rw [e, pow_succ]; omega
      · rw [pow_succ]; omega

theorem bitLen_spec (n : Nat) (h : 0 < n) :
    2 ^ (bitLen n - 1) ≤ n ∧ n < 2 ^ bitLen n ∧ 0 < bitLen n :=
  bitLenAux_spec n n (le_refl n) h

theorem rne_zero_shift (m : Nat) : rne m 0 = m := by
  simp [rne, Nat.mod_one]

/-- Half-ulp bound for rounding to nearest. -/
theorem rne_bound (m s : Nat) :
    2 * (rne m s * 2 ^ s) ≤ 2 * m + 2 ^ s ∧ 2 * m ≤ 2 * (rne m s * 2 ^ s) + 2 ^ s := by
  have hp : 0 < 2 ^ s := Nat.two_pow_pos s
  have hdm := Nat.div_add_mod m (2 ^ s)
  have hlt := Nat.mod_lt m hp
  unfold rne
  simp only []
  generalize m / 2 ^ s = q at *
  generalize m % 2 ^ s = r at *
  have e1 : (q + 1) * 2 ^ s = 2 ^ s * q + 2 ^ s := by ring
  have e2 : q * 2 ^ s = 2 ^ s * q := by ring
  generalize 2 ^ s * q = P at *
  split_ifs with h1 h2 h3 <;> omega

/-- Sharper bound when the rounded number is odd (sticky bit set) and at least two bits are dropped. -/
theorem rne_bound_odd (m s : Nat) (hs : 2 ≤ s) (hodd : m % 2 = 1) :
    2 * (rne m s * 2 ^ s) + 2 ≤ 2 * m + 2 ^ s ∧ 2 * m + 2 ≤ 2 * (rne m s * 2 ^ s) + 2 ^ s := by
  have hp : 0 < 2 ^ s := Nat.two_pow_pos s
  obtain ⟨t, ht⟩ : ∃ t, s = t + 2 := ⟨s - 2, by omega⟩
  have h4 : 2 ^ s = 4 * 2 ^ t := by rw [ht, pow_add]; ring
  have hdm := Nat.div_add_mod m (2 ^ s)
  have hlt := Nat.mod_lt m hp
  unfold rne
  simp only []
  generalize m / 2 ^ s = q at *
  generalize m % 2 ^ s = r at *
  have e1 : (q + 1) * 2 ^ s = 2 ^ s * q + 2 ^ s := by ring
  have e2 : q * 2 ^ s = 2 ^ s * q := by ring
  have e3 : 2 ^ s * q = 4 * (2 ^ t * q) := by rw [h4]; ring
  generalize 2 ^ t * q = P at *
  generalize 2 ^ t = p at *
  split_ifs with h1 h2 h3 <;> omega

theorem lt_two_pow_bitLen (n : Nat) : n < 2 ^ bitLen n := by
  rcases Nat.eq_zero_or_pos n with h | h
  · subst h; exact Nat.two_pow_pos _
  · exact (bitLen_spec n h).2.1

/-- The mantissa before rounding: relative accuracy of the core rounding step on naturals. -/
theorem fround_core (n b m s : Nat) (hb : 0 < b) (hq : 2 ^ 64 ≤ n / b)
    (hm : m = 2 * (n / b) + (if n % b = 0 then 0 else 1)) (hsdef : s = bitLen m - 53) :
    |((rne m s * 2 ^ s : Nat) : ℚ) - 2 * (n : ℚ) / b| ≤ (2 * (n : ℚ) / b) / 2 ^ 53 := by
  have hbq : (0 : ℚ) < b := by exact_mod_cast hb
  have hdm := Nat.div_add_mod n b
  have hlt := Nat.mod_lt n hb
  have hm65 : 2 ^ 65 ≤ m := by
    rw [hm]; omega
  have hmpos : 0 < m := by omega
  obtain ⟨hlo, hhi, _⟩ := bitLen_spec m hmpos
  have hbl : 66 ≤ bitLen m := by
    by_contra hc
    have : bitLen m ≤ 65 := by omega
    have := Nat.pow_le_pow_right (show 0 < 2 by norm_num) this
    omega
  have hs : bitLen m - 1 = s + 52 := by omega
  have hs2 : 2 ≤ s := by omega
  rw [hs] at hlo
  have hpow : 2 ^ (s + 52) = 2 ^ s * 2 ^ 52 := pow_add 2 s 52
  have hV : 2 * (n : ℚ) / b = 2 * ((n / b : Nat) : ℚ) + 2 * ((n % b : Nat) : ℚ) / b := by
    have : (n : ℚ) = b * ((n / b : Nat) : ℚ) + ((n % b : Nat) : ℚ) := by exact_mod_cast hdm.symm
    field_simp
    rw [this]; ring
  have hpq : (0 : ℚ) < 2 ^ s := by positivity
  have hpe0 : 2 ^ s * 2 ^ 52 ≤ m := by rw [← hpow]; exact hlo
  have hsplit : (2 : ℚ) ^ 53 = 2 * 2 ^ 52 := by norm_num
  generalize hR : ((rne m s * 2 ^ s : Nat) : ℚ) = R
  by_cases hr : n % b = 0
  · have hmv : m = 2 * (n / b) := by simp [hm, hr]
    have hVm : 2 * (n : ℚ) / b = (m : ℚ) := by
      rw [hV, hr, hmv]; push_cast; ring
    obtain ⟨b1, b2⟩ := rne_bound m s
    rw [hVm]
    have c1 : (2 : ℚ) * R ≤ 2 * m + 2 ^ s := by rw [← hR]; exact_mod_cast b1
    have c2 : (2 : ℚ) * m ≤ 2 * R + 2 ^ s := by rw [← hR]; exact_mod_cast b2
    have c3 : (2 : ℚ) ^ s * 2 ^ 52 ≤ m := by exact_mod_cast hpe0
    have c4 : (2 : ℚ) ^ s / 2 ≤ (m : ℚ) / 2 ^ 53 := by
      rw [hsplit, div_le_div_iff₀ (by norm_num) (by norm_num)]
      linarith
    rw [abs_le]
    constructor <;> linarith
  · have hmv : m = 2 * (n / b) + 1 := by simp [hm, hr]
    have hodd : m % 2 = 1 := by omega
    obtain ⟨b1, b2⟩ := rne_bound_odd m s hs2 hodd
    have c1 : (2 : ℚ) * R + 2 ≤ 2 * m + 2 ^ s := by rw [← hR]; exact_mod_cast b1
    have c2 : (2 : ℚ) * m + 2 ≤ 2 * R + 2 ^ s := by rw [← hR]; exact_mod_cast b2
    have hrpos : (0 : ℚ) < ((n % b : Nat) : ℚ) := by
      have : 0 < n % b := Nat.pos_of_ne_zero hr
      exact_mod_cast this
    have hrlt : ((n % b : Nat) : ℚ) < b := by exact_mod_cast hlt
    have hfrac0 : (0 : ℚ) < 2 * ((n % b : Nat) : ℚ) / b := div_pos (by linarith) hbq
    have hfrac2 : 2 * ((n % b : Nat) : ℚ) / b < 2 := by
      rw [div_lt_iff₀ hbq]; linarith
    have hmq : (m : ℚ) = 2 * ((n / b : Nat) : ℚ) + 1 := by rw [hmv]; push_cast; ring
    have hpe : 2 ^ s * 2 ^ 52 + 1 ≤ m := by
      have h2 : (2 ^ s * 2 ^ 52) % 2 = 0 := by
        have : 2 ^ 52 = 2 * 2 ^ 51 := by norm_num
        rw [this, ← mul_assoc, mul_comm _ 2, mul_assoc]; exact Nat.mul_mod_right _ _
      omega
    have c3 : (2 : ℚ) ^ s * 2 ^ 52 + 1 ≤ m := by exact_mod_cast hpe
    have hVlo : (2 : ℚ) ^ s * 2 ^ 52 < 2 * (n : ℚ) / b := by rw [hV]; linarith
    have hh : (2 : ℚ) ^ s / 2 < (2 * (n : ℚ) / b) / 2 ^ 53 := by
      rw [hsplit, div_lt_div_iff₀ (by norm_num) (by norm_num)]
      linarith
    rw [abs_le]
    constructor
    · rw [hV] at hh ⊢
      linarith
    · rw [hV] at hh ⊢
      linarith

theorem fround_quot_large (a b : Nat) (ha : 0 < a) (hb : 0 < b) :
    2 ^ 64 ≤ a * 2 ^ (bitLen b + 64) / b := by
  rw [Nat.le_div_iff_mul_le hb]
  have h1 : b < 2 ^ bitLen b := lt_two_pow_bitLen b
  rw [pow_add]
  calc 2 ^ 64 * b ≤ 2 ^ 64 * 2 ^ bitLen b := Nat.mul_le_mul_left _ h1.le
    _ = 1 * (2 ^ bitLen b * 2 ^ 64) := by ring
    _ ≤ a * (2 ^ bitLen b * 2 ^ 64) := Nat.mul_le_mul_right _ ha

theorem fround_err (a b : Nat) (e : Int) (hb : 0 < b) :
    |(fround a b e).toRat - (a : ℚ) / b * 2 ^ e| ≤ (a : ℚ) / b * 2 ^ e / 2 ^ 53 := by
  rcases Nat.eq_zero_or_pos a with ha | ha
  · subst ha
    have : bitLen 0 = 0 := rfl
    simp [fround, F64.toRat, this, rne]
  · unfold fround F64.toRat
    simp only
    have hq := fround_quot_large a b ha hb
    generalize hk : bitLen b + 64 = k at hq ⊢
    generalize hn : a * 2 ^ k = n at hq ⊢
    generalize hm : 2 * (n / b) + (if n % b = 0 then 0 else 1) = m
    generalize hs : bitLen m - 53 = s
    have core := fround_core n b m s hb hq hm.symm hs.symm
    have hbq : (0 : ℚ) < b := by exact_mod_cast hb
    have h2 : (2 : ℚ) ≠ 0 := by norm_num
    have e1 : ((rne m s : Nat) : ℚ) * 2 ^ (e - (k : Int) - 1 + (s : Int))
        = ((rne m s * 2 ^ s : Nat) : ℚ) * 2 ^ (e - (k : Int) - 1) := by
      rw [zpow_add₀ h2, zpow_natCast]; push_cast; ring
    have e2 : (a : ℚ) / b * 2 ^ e = (2 * (n : ℚ) / b) * 2 ^ (e - (k : Int) - 1) := by
      have : e = (e - (k : Int) - 1) + ((k : Int) + 1) := by ring
      conv_lhs => rw [this]
      rw [zpow_add₀ h2, zpow_add₀ h2 (k : Int) 1, zpow_natCast, zpow_one, ← hn]
      push_cast
      field_simp
      ring
    rw [e1, e2, ← sub_mul, abs_mul]
    have hz : (0 : ℚ) < 2 ^ (e - (k : Int) - 1) := by positivity
    rw [abs_of_pos hz]
    calc |((rne m s * 2 ^ s : Nat) : ℚ) - 2 * (n : ℚ) / b| * 2 ^ (e - (k : Int) - 1)
        ≤ (2 * (n : ℚ) / b / 2 ^ 53) * 2 ^ (e - (k : Int) - 1) :=
          mul_le_mul_of_nonneg_right core hz.le
      _ = 2 * (n : ℚ) / b * 2 ^ (e - (k : Int) - 1) / 2 ^ 53 := by ring

theorem F64.ofInt_err (n : Nat) :
    |(F64.ofInt n).toRat - (n : ℚ)| ≤ (n : ℚ) / 2 ^ 53 := by
  have h := fround_err n 1 0 Nat.one_pos
  simpa [F64.ofInt] using h

theorem F64.mul_err (x y : F64) :
    |(x.mul y).toRat - x.toRat * y.toRat| ≤ x.toRat * y.toRat / 2 ^ 53 := by
  have h := fround_err (x.man * y.man) 1 (x.exp + y.exp) Nat.one_pos
  have e : ((x.man * y.man : Nat) : ℚ) / (1 : Nat) * 2 ^ (x.exp + y.exp)
      = x.toRat * y.toRat := by
    unfold F64.toRat
    rw [zpow_add₀ (by norm_num : (2 : ℚ) ≠ 0)]
    push_cast
    ring
  rw [e] at h
  exact h

theorem F64.div_err (x y : F64) (hy : 0 < y.man) :
    |(x.div y).toRat - x.toRat / y.toRat| ≤ x.toRat / y.toRat / 2 ^ 53 := by
  have h := fround_err x.man y.man (x.exp - y.exp) hy
  have hyq : (y.man : ℚ) ≠ 0 := by exact_mod_cast hy.ne'
  have e : (x.man : ℚ) / y.man * 2 ^ (x.exp - y.exp) = x.toRat / y.toRat := by
    unfold F64.toRat
    rw [zpow_sub₀ (by norm_num : (2 : ℚ) ≠ 0)]
    have hz : (2 : ℚ) ^ y.exp ≠ 0 := zpow_ne_zero _ (by norm_num)
    field_simp
  rw [e] at h
  exact h

theorem F64.round_spec (x : F64) :
    (x.round : ℚ) ≤ x.toRat + 1 / 2 ∧ x.toRat + 1 / 2 < (x.round : ℚ) + 1 := by
  unfold F64.round F64.toRat
  by_cases h : 0 ≤ x.exp
  · simp only [h, if_true]
    obtain ⟨n, hn⟩ := Int.eq_ofNat_of_zero_le h
    rw [hn]
    simp only [Int.toNat_ofNat, zpow_natCast]
    push_cast
    constructor <;> linarith
  · simp only [h, if_false]
    obtain ⟨s, hs⟩ : ∃ s : Nat, x.exp = -(s : Int) := ⟨(-x.exp).toNat, by omega⟩
    rw [hs]
    simp only [neg_neg, Int.toNat_ofNat, zpow_neg, zpow_natCast]
    have hp : 0 < 2 ^ s := Nat.two_pow_pos s
    have hdm := Nat.div_add_mod x.man (2 ^ s)
    have hlt := Nat.mod_lt x.man hp
    generalize x.man / 2 ^ s = q at *
    generalize x.man % 2 ^ s = r at *
    have hpq : (0 : ℚ) < 2 ^ s := by positivity
    have hm : (x.man : ℚ) = 2 ^ s * q + r := by exact_mod_cast hdm.symm
    have hval : (x.man : ℚ) * ((2 : ℚ) ^ s)⁻¹ = q + r / 2 ^ s := by
      rw [hm]; field_simp; ring
    rw [hval]
    have hr0 : (0 : ℚ) ≤ r := by positivity
    have hrlt : (r : ℚ) < 2 ^ s := by exact_mod_cast hlt
    split_ifs with hc
    · have hcq : (2 : ℚ) ^ s ≤ 2 * r := by exact_mod_cast hc
      have h1 : (1 : ℚ) / 2 ≤ r / 2 ^ s := by
        rw [div_le_div_iff₀ (by norm_num) hpq]; linarith
      have h2 : (r : ℚ) / 2 ^ s < 1 := by
        rw [div_lt_one hpq]; exact hrlt
      push_cast
      constructor <;> linarith
    · have hcq : 2 * (r : ℚ) < 2 ^ s := by
        have : 2 * r < 2 ^ s := by omega
        exact_mod_cast this
      have h1 : (r : ℚ) / 2 ^ s < 1 / 2 := by
        rw [div_lt_div_iff₀ hpq (by norm_num)]; linarith
      have h2 : (0 : ℚ) ≤ r / 2 ^ s := by positivity
      constructor <;> linarith

theorem four_over_one_lower (u : ℚ) (hu0 : 0 < u) (hu1 : u ≤ 1 / 100) :
    1 - 6 * u ≤ (1 - u) ^ 4 / (1 + u) := by
  have h1 : 0 < 1 + u := by linarith
  rw [le_div_iff₀ h1]
  have a1 : 0 ≤ u * (1 / 100 - u) := mul_nonneg hu0.le (by linarith)
  have a2 : 0 ≤ u * u * (1 / 100 - u) := mul_nonneg (mul_nonneg hu0.le hu0.le) (by linarith)
  have a3 : 0 ≤ u * u * u * u := by positivity
  have e : (1 - u) ^ 4 - (1 - 6 * u) * (1 + u)
      = u + 12 * (u * u) - 4 * (u * u * u) + u * u * u * u := by ring
  nlinarith

theorem four_over_one_upper (u : ℚ) (hu0 : 0 < u) (hu1 : u ≤ 1 / 100) :
    (1 + u) ^ 4 / (1 - u) ≤ 1 + 6 * u := by
  have h1 : 0 < 1 - u := by linarith
  rw [div_le_iff₀ h1]
  have a1 : 0 ≤ u * (1 / 100 - u) := mul_nonneg hu0.le (by linarith)
  have a2 : 0 ≤ u * u * (1 / 100 - u) := mul_nonneg (mul_nonneg hu0.le hu0.le) (by linarith)
  have a3 : 0 ≤ u * u * u * (1 / 100 - u) :=
    mul_nonneg (mul_nonneg (mul_nonneg hu0.le hu0.le) hu0.le) (by linarith)
  have e : (1 + 6 * u) * (1 - u) - (1 + u) ^ 4
      = u - 12 * (u * u) - 4 * (u * u * u) - u * u * u * u := by ring
  nlinarith

/-- Five roundings, each with relative error at most `u`, composed as in
`float64(l) / float64(a) * float64(b)`. -/
theorem five_roundings (u l a b t x y dv r : ℚ) (hu0 : 0 < u) (hu1 : u ≤ 1 / 100)
    (hl0 : 0 ≤ l) (ha : 1 ≤ a) (hb0 : 0 ≤ b)
    (hl : -(l * u) ≤ t - l ∧ t - l ≤ l * u)
    (hA : -(a * u) ≤ x - a ∧ x - a ≤ a * u)
    (hB : -(b * u) ≤ y - b ∧ y - b ≤ b * u)
    (hD : -(t / x * u) ≤ dv - t / x ∧ dv - t / x ≤ t / x * u)
    (hM : -(dv * y * u) ≤ r - dv * y ∧ r - dv * y ≤ dv * y * u) :
    l * b / a * (1 - 6 * u) ≤ r ∧ r ≤ l * b / a * (1 + 6 * u) := by
  have h1u : 0 < 1 - u := by linarith
  have h1u' : 0 < 1 + u := by linarith
  have ha0 : 0 < a := by linarith
  have hxpos : 0 < x := by nlinarith [hA.1]
  have ht0 : 0 ≤ t := by nlinarith [hl.1]
  have hy0 : 0 ≤ y := by nlinarith [hB.1]
  have hc0 : 0 ≤ t / x := div_nonneg ht0 hxpos.le
  have hcU : t / x ≤ (l * (1 + u)) / (a * (1 - u)) :=
    div_le_div₀ (by positivity) (by linarith [hl.2]) (by positivity) (by linarith [hA.1])
  have hcL : (l * (1 - u)) / (a * (1 + u)) ≤ t / x :=
    div_le_div₀ ht0 (by linarith [hl.1]) hxpos (by linarith [hA.2])
  have hdv0 : 0 ≤ dv := by nlinarith [hD.1]
  have hdvU : dv ≤ t / x * (1 + u) := by linarith [hD.2]
  have hdvL : t / x * (1 - u) ≤ dv := by linarith [hD.1]
  have hyU : y ≤ b * (1 + u) := by linarith [hB.2]
  have hyL : b * (1 - u) ≤ y := by linarith [hB.1]
  have hrU : r ≤ dv * y * (1 + u) := by linarith [hM.2]
  have hrL : dv * y * (1 - u) ≤ r := by linarith [hM.1]
  have hQ0 : (0 : ℚ) ≤ l * b / a := by positivity
  have hb1 : 0 ≤ b * (1 - u) := mul_nonneg hb0 h1u.le
  have hb2 : 0 ≤ b * (1 + u) := mul_nonneg hb0 h1u'.le
  have hc1 : 0 ≤ t / x * (1 - u) := mul_nonneg hc0 h1u.le
  have hc2 : 0 ≤ t / x * (1 + u) := mul_nonneg hc0 h1u'.le
  have n1 := four_over_one_lower u hu0 hu1
  have n2 := four_over_one_upper u hu0 hu1
  constructor
  · calc l * b / a * (1 - 6 * u)
        ≤ l * b / a * ((1 - u) ^ 4 / (1 + u)) := mul_le_mul_of_nonneg_left n1 hQ0
      _ = ((l * (1 - u)) / (a * (1 + u)) * (1 - u)) * (b * (1 - u)) * (1 - u) := by
          field_simp; ring
      _ ≤ (t / x * (1 - u)) * (b * (1 - u)) * (1 - u) := by
          apply mul_le_mul_of_nonneg_right _ h1u.le
          apply mul_le_mul_of_nonneg_right _ hb1
          exact mul_le_mul_of_nonneg_right hcL h1u.le
      _ ≤ dv * y * (1 - u) := by
          apply mul_le_mul_of_nonneg_right _ h1u.le
          exact mul_le_mul hdvL hyL hb1 hdv0
      _ ≤ r := hrL
  · calc r ≤ dv * y * (1 + u) := hrU
      _ ≤ (t / x * (1 + u)) * (b * (1 + u)) * (1 + u) := by
          apply mul_le_mul_of_nonneg_right _ h1u'.le
          exact mul_le_mul hdvU hyU hy0 hc2
      _ ≤ ((l * (1 + u)) / (a * (1 - u)) * (1 + u)) * (b * (1 + u)) * (1 + u) := by
          apply mul_le_mul_of_nonneg_right _ h1u'.le
          apply mul_le_mul_of_nonneg_right _ hb2
          exact mul_le_mul_of_nonneg_right hcU h1u'.le
      _ = l * b / a * ((1 + u) ^ 4 / (1 - u)) := by
          field_simp; ring
      _ ≤ l * b / a * (1 + 6 * u) := mul_le_mul_of_nonneg_left n2 hQ0

/-- Relative accuracy of the scaled side before the final rounding to an integer: the
float64 value differs from the exact `l * b / a` by at most six units in the 53rd place. -/
theorem scaleSide_err (l a b : Nat) (ha : 0 < a) :
    ∃ r : ℚ, (l : ℚ) * b / a * (1 - 6 * (1 / 2 ^ 53)) ≤ r ∧
      r ≤ (l : ℚ) * b / a * (1 + 6 * (1 / 2 ^ 53)) ∧
      (scaleSide l a b : ℚ) ≤ r + 1 / 2 ∧ r + 1 / 2 < (scaleSide l a b : ℚ) + 1 := by
  unfold scaleSide
  have eu : ∀ z : ℚ, z / 2 ^ 53 = z * (1 / 2 ^ 53) := by intro z; ring
  have hl := F64.ofInt_err l
  have hA := F64.ofInt_err a
  have hB := F64.ofInt_err b
  have haq : (1 : ℚ) ≤ a := by exact_mod_cast ha
  have hxpos : 0 < (F64.ofInt a).toRat := by
    rw [abs_le, eu] at hA
    nlinarith [hA.1]
  have hman : 0 < (F64.ofInt a).man := by
    by_contra hc
    have : (F64.ofInt a).man = 0 := by omega
    simp [F64.toRat, this] at hxpos
  have hD := F64.div_err (F64.ofInt l) (F64.ofInt a) hman
  have hM := F64.mul_err ((F64.ofInt l).div (F64.ofInt a)) (F64.ofInt b)
  rw [eu, abs_le] at hl hA hB hD hM
  have h5 := five_roundings (1 / 2 ^ 53) l a b _ _ _ _ _ (by positivity) (by norm_num)
    (by positivity) haq (by positivity) hl hA hB hD hM
  exact ⟨_, h5.1, h5.2, (F64.round_spec _).1, (F64.round_spec _).2⟩
/-! ## Resize policy -/

/-- The scaled side never exceeds the target when the divisor is the larger side. -/
theorem scaleSide_le (l a b : Nat) (ha : 0 < a) (hba : b ≤ a) (hl : l < 2 ^ 49) :
    scaleSide l a b ≤ l := by
  obtain ⟨r, -, hr, hd, -⟩ := scaleSide_err l a b ha
  have haq : (0 : ℚ) < a := by exact_mod_cast ha
  have hbq : (b : ℚ) ≤ a := by exact_mod_cast hba
  have hlq : (l : ℚ) < 2 ^ 49 := by exact_mod_cast hl
  have hl0 : (0 : ℚ) ≤ l := by positivity
  have hq : (l : ℚ) * b / a ≤ l := by
    rw [div_le_iff₀ haq]
    exact mul_le_mul_of_nonneg_left hbq hl0
  have h1 : (l : ℚ) * b / a * (1 + 6 * (1 / 2 ^ 53)) ≤ l * (1 + 6 * (1 / 2 ^ 53)) :=
    mul_le_mul_of_nonneg_right hq (by norm_num)
  have h2 : (l : ℚ) * (1 + 6 * (1 / 2 ^ 53)) < l + 1 / 2 := by
    have : (l : ℚ) * (6 * (1 / 2 ^ 53)) < 2 ^ 49 * (6 * (1 / 2 ^ 53)) :=
      mul_lt_mul_of_pos_right hlq (by norm_num)
    have e : (2 : ℚ) ^ 49 * (6 * (1 / 2 ^ 53)) = 3 / 8 := by norm_num
    linarith
  have h3 : (scaleSide l a b : ℚ) < l + 1 := by linarith
  have h4 : scaleSide l a b < l + 1 := by exact_mod_cast h3
  omega

/-- The scaled side is an integer nearest to the exact quotient. -/
theorem scaleSide_nearest (l a b : Nat) (ha : 0 < a) (hba : b ≤ a) (hla : l * a ≤ 2 ^ 49) :
    Nearest (scaleSide l a b) (l * b) a := by
  obtain ⟨r, hr1, hr2, hd1, hd2⟩ := scaleSide_err l a b ha
  have haq : (0 : ℚ) < a := by exact_mod_cast ha
  have hbq : (b : ℚ) ≤ a := by exact_mod_cast hba
  have hlaq : (l : ℚ) * a ≤ 2 ^ 49 := by exact_mod_cast hla
  have hl0 : (0 : ℚ) ≤ l := by positivity
  have hb0 : (0 : ℚ) ≤ b := by positivity
  generalize hq : (l : ℚ) * b / a = q at hr1 hr2
  have hqa : q * a = l * b := by rw [← hq]; field_simp
  have hq0 : 0 ≤ q := by rw [← hq]; positivity
  have hql : q ≤ l := by
    rw [← hq, div_le_iff₀ haq]
    exact mul_le_mul_of_nonneg_left hbq hl0
  -- the float error, scaled by `2 * a`, stays below one
  have herr : q * (6 * (1 / 2 ^ 53)) * (2 * a) ≤ 3 / 4 := by
    have h1 : q * a ≤ 2 ^ 49 := le_trans (mul_le_mul_of_nonneg_right hql haq.le) hlaq
    have e : q * (6 * (1 / 2 ^ 53)) * (2 * a) = (q * a) * (12 / 2 ^ 53) := by ring
    rw [e]
    calc (q * a) * (12 / 2 ^ 53) ≤ 2 ^ 49 * (12 / 2 ^ 53) :=
          mul_le_mul_of_nonneg_right h1 (by norm_num)
      _ = 3 / 4 := by norm_num
  generalize hd : scaleSide l a b = d at hd1 hd2 ⊢
  have hdq : (d : ℚ) * (2 * a) ≤ (q + q * (6 * (1 / 2 ^ 53)) + 1 / 2) * (2 * a) :=
    mul_le_mul_of_nonneg_right (by linarith) (by linarith)
  have hdq2 : (q - q * (6 * (1 / 2 ^ 53)) + 1 / 2) * (2 * a) < ((d : ℚ) + 1) * (2 * a) :=
    mul_lt_mul_of_pos_right (by linarith) (by linarith)
  constructor
  · have h : (2 * (l * b) : ℚ) < 2 * a * d + a + 1 := by nlinarith
    have h' : 2 * (l * b) < 2 * a * d + a + 1 := by exact_mod_cast h
    omega
  · have h : (2 * a * d : ℚ) < 2 * (l * b) + a + 1 := by nlinarith
    have h' : 2 * a * d < 2 * (l * b) + a + 1 := by exact_mod_cast h
    omega

/-- A nearest integer to an integer quotient is that quotient. -/
theorem Nearest.eq_of_mul {d l a : Nat} (ha : 0 < a) (h : Nearest d (l * a) a) : d = l := by
  obtain ⟨h1, h2⟩ := h
  have e1 : 2 * (l * a) = a * (2 * l) := by ring
  have e2 : 2 * a * d = a * (2 * d) := by ring
  rw [e1, e2] at h1 h2
  have h1' : a * (2 * l) < a * (2 * d + 2) := by
    have : a * (2 * d + 2) = a * (2 * d) + a + a := by ring
    omega
  have h2' : a * (2 * d) < a * (2 * l + 2) := by
    have : a * (2 * l + 2) = a * (2 * l) + a + a := by ring
    omega
  have := Nat.lt_of_mul_lt_mul_left h1'
  have := Nat.lt_of_mul_lt_mul_left h2'
  omega

/-- C1: the policy reports that no resize is needed exactly when both the width and the
height are at most the target; the bound is inclusive, so a 2560 by 2560 image with
target 2560 is not resized. -/
theorem resizeImage_no_resize_iff :
    (∀ w h T : Nat, (resizeImage w h T).1 = false ↔ (w ≤ T ∧ h ≤ T)) ∧
      resizeImage 2560 2560 2560 = (false, none) := by
  refine ⟨?_, by decide⟩
  intro w h T
  unfold resizeImage
  by_cases hc : w ≤ T ∧ h ≤ T
  · simp [hc]
  · simp only [hc, if_false, iff_false]
    split_ifs <;> simp

/-- C2, as stated, fails: for a 2816 by 1155 image and target 1920 the exact quotient
`1920 * 1155 / 2816` is 787.5, which rounds half away from zero to 788, while the code
computes `1920 / 2816 * 1155` in float64, obtains a value just below 787.5 and returns
787. -/
theorem resizeImage_not_exact_rounding :
    resizeImage 2816 1155 1920 = (true, some (1920, 787)) ∧
      specResizeTo 2816 1155 1920 = (1920, 788) := by
  constructor <;> decide

/-- C2, amended: when the longer side exceeds the target `T` (and `T * max w h ≤ 2 ^ 49`),
the longer side becomes exactly `T` and the other side is
`int(math.Round(float64(T) / float64(max) * float64(min)))`, which is an integer nearest
to the exact quotient `T * min / max` (so it is the exact rounding except possibly at an
exact half, where the lower neighbour may be taken); when `w = h` both become `T`; and the
three images of the specification get 2560 by 1280, 1280 by 2560 and 2560 by 2560. -/
theorem resizeImage_target :
    (∀ w h T : Nat, T < max w h → T * max w h ≤ 2 ^ 49 →
      ∃ nw nh, resizeImage w h T = (true, some (nw, nh)) ∧
        (h ≤ w → nw = T ∧ nh = scaleSide T w h ∧ Nearest nh (T * h) w) ∧
        (w < h → nh = T ∧ nw = scaleSide T h w ∧ Nearest nw (T * w) h) ∧
        (w = h → nw = T ∧ nh = T)) ∧
      resizeImage 4000 2000 2560 = (true, some (2560, 1280)) ∧
      resizeImage 2000 4000 2560 = (true, some (1280, 2560)) ∧
      resizeImage 5000 5000 2560 = (true, some (2560, 2560)) := by
  refine ⟨?_, by decide, by decide, by decide⟩
  intro w h T hbig hrange
  have hc : ¬ (w ≤ T ∧ h ≤ T) := by
    intro hc
    rcases le_total w h with hwh | hwh
    · rw [max_eq_right hwh] at hbig; omega
    · rw [max_eq_left hwh] at hbig; omega
  by_cases hwh : h ≤ w
  · rw [max_eq_left hwh] at hbig hrange
    have hw : 0 < w := by omega
    have hn := scaleSide_nearest T w h hw hwh hrange
    refine ⟨T, scaleSide T w h, by simp [resizeImage, hc, hwh], fun _ => ⟨rfl, rfl, hn⟩,
      fun hlt => absurd hwh (by omega), ?_⟩
    intro heq
    subst heq
    exact ⟨rfl, Nearest.eq_of_mul hw hn⟩
  · have hlt : w < h := by omega
    rw [max_eq_right hlt.le] at hbig hrange
    have hh : 0 < h := by omega
    have hn := scaleSide_nearest T h w hh hlt.le hrange
    refine ⟨scaleSide T h w, T, ?_, fun hle => absurd hle hwh, fun _ => ⟨rfl, rfl, hn⟩,
      fun heq => absurd heq (by omega)⟩
    have : ¬ w ≥ h := by omega
    simp [resizeImage, hc, this]

/-- The amended C2 at the 4000 by 2000 image of the specification, target 2560. -/
theorem resizeImage_target_witness :
    2560 < max 4000 2000 ∧ 2560 * max 4000 2000 ≤ 2 ^ 49 ∧
      ∃ nw nh, resizeImage 4000 2000 2560 = (true, some (nw, nh)) ∧
        (2000 ≤ 4000 → nw = 2560 ∧ nh = scaleSide 2560 4000 2000 ∧
          Nearest nh (2560 * 2000) 4000) ∧
        (4000 < 2000 → nh = 2560 ∧ nw = scaleSide 2560 2000 4000 ∧
          Nearest nw (2560 * 4000) 2000) ∧
        (4000 = 2000 → nw = 2560 ∧ nh = 2560) :=
  ⟨by decide, by decide, resizeImage_target.1 4000 2000 2560 (by decide) (by decide)⟩

/-- The scaled side never exceeds the target when the raster of line 157 can be
allocated: `image.NewRGBA` needs `4 * newX * newY` to fit an `int`. -/
theorem scaleSide_le_of_fits (l a b : Nat) (ha : 0 < a) (hba : b ≤ a)
    (hfit : l < 2 ^ 49 ∨ 4 * (l * scaleSide l a b) < 2 ^ 63) : scaleSide l a b ≤ l := by
  rcases hfit with hl | hfit
  · exact scaleSide_le l a b ha hba hl
  · by_contra hd
    have hd1 : l ≤ scaleSide l a b := by omega
    by_cases hl : l < 2 ^ 49
    · exact hd (scaleSide_le l a b ha hba hl)
    · have h49 : 2 ^ 49 ≤ l := by omega
      have h1 : 2 ^ 49 * 2 ^ 49 ≤ l * scaleSide l a b :=
        Nat.mul_le_mul h49 (le_trans h49 hd1)
      norm_num at h1 hfit
      omega

/-- C3: the policy is idempotent. If it yields the target dimensions `(w', h')`, where
the target is below `2 ^ 49` or the raster of `w'` by `h'` pixels can be allocated at all
(`4 * w' * h'` fits an `int`, without which `image.NewRGBA` does not return), both are at
most the target, so the policy applied to a `w'` by `h'` image reports that no resize is
needed; and an image for which no resize is reported is at or below the target on both
axes, so the report repeats. -/
theorem resizeImage_idempotent (w h T : Nat) :
    (∀ w' h', resizeImage w h T = (true, some (w', h')) →
        (T < 2 ^ 49 ∨ 4 * (w' * h') < 2 ^ 63) →
        w' ≤ T ∧ h' ≤ T ∧ resizeImage w' h' T = (false, none)) ∧
      (resizeImage w h T = (false, none) →
        w ≤ T ∧ h ≤ T ∧ resizeImage w h T = (false, none)) := by
  constructor
  · intro w' h' hres hfit
    have key : w' ≤ T ∧ h' ≤ T := by
      unfold resizeImage at hres
      by_cases hc : w ≤ T ∧ h ≤ T
      · simp [hc] at hres
      · simp only [hc, if_false] at hres
        by_cases hwh : w ≥ h
        · simp only [hwh, if_true, Prod.mk.injEq, Option.some.injEq, true_and] at hres
          obtain ⟨h1, h2⟩ := hres
          have hw : 0 < w := by omega
          subst h1 h2
          have := scaleSide_le_of_fits T w h hw hwh hfit
          omega
        · simp only [hwh, if_false, Prod.mk.injEq, Option.some.injEq, true_and] at hres
          obtain ⟨h1, h2⟩ := hres
          have hh : 0 < h := by omega
          subst h1 h2
          rw [Nat.mul_comm (scaleSide T h w) T] at hfit
          have := scaleSide_le_of_fits T h w hh (by omega) hfit
          omega
    exact ⟨key.1, key.2, by simp [resizeImage, key]⟩
  · intro hres
    have key : w ≤ T ∧ h ≤ T := by
      by_contra hc
      unfold resizeImage at hres
      simp only [hc, if_false] at hres
      split_ifs at hres <;> simp at hres
    exact ⟨key.1, key.2, hres⟩

/-- C3 at the 4000 by 2000 image, target 2560: the result 2560 by 1280 needs no resize. -/
theorem resizeImage_idempotent_witness :
    resizeImage 4000 2000 2560 = (true, some (2560, 1280)) ∧
      (2560 < 2 ^ 49 ∨ 4 * (2560 * 1280) < 2 ^ 63) ∧
      (2560 ≤ 2560 ∧ 1280 ≤ 2560 ∧ resizeImage 2560 1280 2560 = (false, none)) :=
  ⟨by decide, by decide,
    (resizeImage_idempotent 4000 2000 2560).1 2560 1280 (by decide) (by decide)⟩

/-- C10, as stated, fails: a 1000 by 1 image with target 2 is given the target
dimensions 2 by 0, an empty raster. -/
theorem resizeImage_zero_side : resizeImage 1000 1 2 = (true, some (2, 0)) := by
  decide

/-- C10, amended: when the longer side exceeds the target `T` (and `T * max w h ≤ 2 ^ 49`),
the longer side becomes `T`; the other side is at least 1 when twice `T * min` exceeds
`max`, and it is 0 when twice `T * min` is below `max`. -/
theorem resizeImage_short_side (w h T : Nat) (hbig : T < max w h)
    (hrange : T * max w h ≤ 2 ^ 49) :
    ∃ nw nh, resizeImage w h T = (true, some (nw, nh)) ∧
      (h ≤ w → nw = T ∧ (w < 2 * (T * h) → 1 ≤ nh) ∧ (2 * (T * h) < w → nh = 0)) ∧
      (w < h → nh = T ∧ (h < 2 * (T * w) → 1 ≤ nw) ∧ (2 * (T * w) < h → nw = 0)) := by
  have hc : ¬ (w ≤ T ∧ h ≤ T) := by
    intro hc
    rcases le_total w h with hwh | hwh
    · rw [max_eq_right hwh] at hbig; omega
    · rw [max_eq_left hwh] at hbig; omega
  have aux : ∀ d l a b : Nat, 0 < a → Nearest d (l * b) a →
      (a < 2 * (l * b) → 1 ≤ d) ∧ (2 * (l * b) < a → d = 0) := by
    intro d l a b ha hn
    obtain ⟨h1, h2⟩ := hn
    constructor
    · intro hlt
      by_contra hd
      have : d = 0 := by omega
      subst this
      simp at h1
      omega
    · intro hlt
      by_contra hd
      have hd1 : 1 ≤ d := by omega
      have : 2 * a * 1 ≤ 2 * a * d := Nat.mul_le_mul_left _ hd1
      omega
  by_cases hwh : h ≤ w
  · rw [max_eq_left hwh] at hbig hrange
    have hw : 0 < w := by omega
    have hn := scaleSide_nearest T w h hw hwh hrange
    exact ⟨T, scaleSide T w h, by simp [resizeImage, hc, hwh],
      fun _ => ⟨rfl, aux _ _ _ _ hw hn⟩, fun hlt => absurd hwh (by omega)⟩
  · have hlt : w < h := by omega
    rw [max_eq_right hlt.le] at hbig hrange
    have hh : 0 < h := by omega
    have hn := scaleSide_nearest T h w hh hlt.le hrange
    refine ⟨scaleSide T h w, T, ?_, fun hle => absurd hle hwh,
      fun _ => ⟨rfl, aux _ _ _ _ hh hn⟩⟩
    have : ¬ w ≥ h := by omega
    simp [resizeImage, hc, this]

/-- The amended C10 at a 1000 by 1 image with target 2. -/
theorem resizeImage_short_side_witness :
    2 < max 1000 1 ∧ 2 * max 1000 1 ≤ 2 ^ 49 ∧
      ∃ nw nh, resizeImage 1000 1 2 = (true, some (nw, nh)) ∧
        (1 ≤ 1000 → nw = 2 ∧ (1000 < 2 * (2 * 1) → 1 ≤ nh) ∧ (2 * (2 * 1) < 1000 → nh = 0)) ∧
        (1000 < 1 → nh = 2 ∧ (1 < 2 * (2 * 1000) → 1 ≤ nw) ∧ (2 * (2 * 1000) < 1 → nw = 0)) :=
  ⟨by decide, by decide, resizeImage_short_side 1000 1 2 (by decide) (by decide)⟩

/-! ## Image pipeline -/

theorem doneCount_copy (o : Outcome) (src dst : PathName) (fs : FileSystem) :
    doneCount (copy o src dst fs).2 = 0 := by
  unfold copy
  split_ifs <;> simp [doneCount]

theorem doneCount_afterDecode (T : Nat) (o : Outcome) (src dst : PathName)
    (fs : FileSystem) : doneCount (afterDecode T o src dst fs).2 = 1 := by
  have hc := doneCount_copy o src dst fs
  unfold doneCount at hc ⊢
  unfold afterDecode
  cases (resizeImage o.X o.Y T).1
  · simp [List.count_append, hc]
  · simp only [Bool.not_true, Bool.false_eq_true, if_false]
    split_ifs <;> simp

/-- Every trace of a job holds exactly one `wg.Done()`. -/
theorem doneCount_job (T : Nat) (o : Outcome) (src dst : PathName) (fs : FileSystem) :
    doneCount (copyOrResizeImageFile T o src dst fs).2 = 1 := by
  unfold copyOrResizeImageFile
  split_ifs <;> first | exact doneCount_afterDecode T o src dst fs | simp [doneCount]

theorem getLast_afterDecode (T : Nat) (o : Outcome) (src dst : PathName)
    (fs : FileSystem) : (afterDecode T o src dst fs).2.getLast? = some Event.done := by
  unfold afterDecode
  cases (resizeImage o.X o.Y T).1
  · simp only [Bool.not_false, if_true]
    exact List.getLast?_concat _
  · simp only [Bool.not_true, Bool.false_eq_true, if_false]
    split_ifs <;> simp

/-- C5: whatever the outcomes of the library calls and whatever the filesystem, a run of
`copyOrResizeImageFile` calls `wg.Done()` exactly once, and that call is the last thing
the run does before it returns. -/
theorem copyOrResizeImageFile_done_once (T : Nat) (o : Outcome) (src dst : PathName)
    (fs : FileSystem) :
    doneCount (copyOrResizeImageFile T o src dst fs).2 = 1 ∧
      (copyOrResizeImageFile T o src dst fs).2.getLast? = some Event.done := by
  refine ⟨doneCount_job T o src dst fs, ?_⟩
  unfold copyOrResizeImageFile
  split_ifs <;> first | exact getLast_afterDecode T o src dst fs | simp

/-- C6 fails on the code: with an empty name prefix, and also with the prefixes `./` and
`x/../` that `filepath.Join` cleans away, line 58 builds a destination path equal to the
source path (the prefix `../` leaves the directory, the default prefix does what its
name says); `os.Create` of line 176
truncates that file before `io.Copy` of line 183 reads it, so a source that held the
bytes 1, 2, 3 is left empty, the job prints that it copied 0 bytes and no error line,
although every call succeeds.  On the resize path the same paths do no harm: the image
was decoded before the file is created, and the encoded bytes are written. -/
theorem copy_onto_itself_truncates :
    let src : PathName := "photos/a.jpg"
    let o : Outcome := ⟨false, "image/jpeg", false, 800, 600, false, false, [], false,
      false, false, 0⟩
    let big : Outcome := ⟨false, "image/jpeg", false, 5000, 5000, false, false, [255, 216],
      false, false, false, 0⟩
    let fs : FileSystem := fun p => if p = src then some [1, 2, 3] else none
    dstFilePath "" src = src ∧ dstFilePath "./" src = src ∧
      dstFilePath "x/../" src = src ∧ dstFilePath "../" src = "a.jpg" ∧
      dstFilePath "resized_" src = "photos/resized_a.jpg" ∧
      (resizeImage o.X o.Y 2560).1 = false ∧
      fs src = some [1, 2, 3] ∧
      (copyOrResizeImageFile 2560 o src (dstFilePath "" src) fs).1 (dstFilePath "" src)
        = some [] ∧
      (copyOrResizeImageFile 2560 o src (dstFilePath "" src) fs).2
        = [.log (.resizing src), .log (.copyNoResize src src), .log (.copied 0 src src),
            .done] ∧
      (copyOrResizeImageFile 2560 big src (dstFilePath "" src) fs).1 (dstFilePath "" src)
        = some [255, 216] := by
  decide

/-- C7 fails on the code: the value returned by the encoder is discarded, so a run in
which `jpeg.Encode` or `png.Encode` fails is the same, trace and filesystem, as the run
in which it succeeds; for a 5000 by 5000 JPEG whose encoding fails the trace holds no
error line at all. -/
theorem encode_error_is_silent :
    (∀ (T : Nat) (o : Outcome) (src dst : PathName) (fs : FileSystem),
      copyOrResizeImageFile T { o with encodeErr := true } src dst fs
        = copyOrResizeImageFile T { o with encodeErr := false } src dst fs) ∧
    (let src : PathName := "photos/a.jpg"
     let dst : PathName := dstFilePath "resized_" src
     let o : Outcome := ⟨false, "image/jpeg", false, 5000, 5000, false, true, [255, 216],
       false, false, false, 0⟩
     let fs : FileSystem := fun p => if p = src then some [1, 2, 3] else none
     (resizeImage o.X o.Y 2560).1 = true ∧ o.encodeErr = true ∧
       (copyOrResizeImageFile 2560 o src dst fs).2
         = [.log (.resizing src), .log (.writing dst), .done] ∧
       errorLines (copyOrResizeImageFile 2560 o src dst fs).2 = []) := by
  refine ⟨fun T o src dst fs => rfl, ?_⟩
  decide

/-- C8: when opening the source fails, or the sniffed type is neither `image/jpeg` nor
`image/png`, or decoding fails, the job leaves the filesystem exactly as it found it. -/
theorem early_failure_touches_nothing (T : Nat) (o : Outcome) (src dst : PathName)
    (fs : FileSystem)
    (hfail : (o.openErr = true ∨ fs src = none) ∨
      (o.mtype ≠ "image/jpeg" ∧ o.mtype ≠ "image/png") ∨ o.decodeErr = true) :
    (copyOrResizeImageFile T o src dst fs).1 = fs := by
  unfold copyOrResizeImageFile
  rcases hfail with h | h | h
  · simp [h]
  · split_ifs <;> simp_all
  · split_ifs <;> simp_all

/-- C8 at a file whose content is not an image: nothing is created or written. -/
theorem early_failure_touches_nothing_witness :
    let src : PathName := "photos/notes.txt"
    let dst : PathName := dstFilePath "resized_" src
    let o : Outcome := ⟨false, "text/plain", false, 0, 0, false, false, [], false,
      false, false, 0⟩
    let fs : FileSystem := fun p => if p = src then some [104, 105] else none
    ((o.openErr = true ∨ fs src = none) ∨
      (o.mtype ≠ "image/jpeg" ∧ o.mtype ≠ "image/png") ∨ o.decodeErr = true) ∧
      (copyOrResizeImageFile 2560 o src dst fs).1 = fs :=
  ⟨Or.inr (Or.inl (by decide)),
    early_failure_touches_nothing 2560 _ _ _ _ (Or.inr (Or.inl (by decide)))⟩

/-! ## Dispatch loop -/

theorem Inv.init (cfg : Config) (files : List PathName) (fs : FileSystem)
    (hC : 1 ≤ cfg.concurrentWorkers) : Inv cfg files (Sched.init files fs) := by
  constructor <;> simp [Sched.init, Sched.launched]
  · omega
  · intro _; omega
  · intro h; split_ifs at h
  · rintro (h | h) <;> split_ifs at h

theorem Inv.launch {cfg : Config} {files : List PathName} {out : Nat → Outcome}
    {s s1 : Sched} (hI : Inv cfg files s)
    (h : step cfg out s .launch = some s1) : Inv cfg files s1 := by
  simp only [step] at h
  split at h
  · rename_i filePath rest hpc hpend
    simp only [Option.some.injEq] at h
    subst h
    have hlt := hI.loop_lt hpc
    constructor <;> simp only
    · have := hI.wg_eq; simp only [List.length_cons]; push_cast; omega
    · have := hI.running_le; simp only [List.length_cons]; omega
    · intro j hj
      rcases List.mem_cons.mp hj with h | h
      · subst h; simp
      · exact List.mem_append_left _ (hI.running_sub j h)
    · simp [hI.current_len]
    · intro j hj
      rcases List.mem_append.mp hj with h | h
      · have := hI.current_range j h; omega
      · simp only [List.mem_singleton] at h; subst h; simp only; omega
    · intro ch hch j hj
      have := hI.closed_range ch hch j hj; omega
    · exact hI.closed_len
    · push_cast; omega
    · intro hp; split_ifs at hp with hc
      push_cast at hc ⊢; omega
    · intro hp; split_ifs at hp with hc
      push_cast at hc ⊢; omega
    · rintro (hp | hp) <;> split_ifs at hp
    · rintro (hp | hp) <;> split_ifs at hp
    · have := hI.launched_eq
      rw [hpend] at this
      simp only [Sched.launched, jobsFrom] at this ⊢
      rw [← this]; simp
  · simp at h

theorem Inv.loopEnd {cfg : Config} {files : List PathName} {out : Nat → Outcome}
    {s s1 : Sched} (hI : Inv cfg files s)
    (h : step cfg out s .loopEnd = some s1) : Inv cfg files s1 := by
  simp only [step] at h
  split at h
  · rename_i hpc hpend
    simp only [Option.some.injEq] at h
    subst h
    constructor <;> simp only
    · exact hI.wg_eq
    · exact hI.running_le
    · exact hI.running_sub
    · exact hI.current_len
    · exact hI.current_range
    · exact hI.closed_range
    · exact hI.closed_len
    · exact hI.count_le
    · intro hp; simp at hp
    · intro hp; simp at hp
    · intro _; exact hpend
    · rintro (hp | hp) <;> simp at hp
    · exact hI.launched_eq
  · simp at h

theorem Inv.finish {cfg : Config} {files : List PathName} {out : Nat → Outcome}
    {s s1 : Sched} {j : Job} (hI : Inv cfg files s)
    (h : step cfg out s (.finish j) = some s1) : Inv cfg files s1 := by
  simp only [step] at h
  split_ifs at h with hj
  simp only [Option.some.injEq] at h
  subst h
  have hlen := List.length_erase_of_mem hj
  have hpos : 0 < s.running.length := List.length_pos_of_mem hj
  constructor <;> simp only
  · rw [doneCount_job, hlen, hI.wg_eq]; push_cast; omega
  · have := hI.running_le; omega
  · intro k hk; exact hI.running_sub k (List.mem_of_mem_erase hk)
  · exact hI.current_len
  · exact hI.current_range
  · exact hI.closed_range
  · exact hI.closed_len
  · exact hI.count_le
  · exact hI.loop_lt
  · exact hI.barrier_eq
  · exact hI.done_pending
  · intro hp
    have := hI.done_running hp
    rw [this] at hj
    simp at hj
  · exact hI.launched_eq

theorem Inv.waitReturn {cfg : Config} {files : List PathName} {out : Nat → Outcome}
    {s s1 : Sched} (hC : 1 ≤ cfg.concurrentWorkers) (hI : Inv cfg files s)
    (h : step cfg out s .waitReturn = some s1) : Inv cfg files s1 := by
  simp only [step] at h
  split_ifs at h with hwg
  have hrun : s.running = [] := by
    have := hI.wg_eq
    rw [hwg] at this
    exact List.length_eq_zero.mp (by omega)
  split at h
  · rename_i hpc
    simp only [Option.some.injEq] at h
    subst h
    constructor <;> simp only
    · rw [hwg, hrun]; simp
    · rw [hrun]; simp
    · rw [hrun]; simp
    · simp
    · simp
    · intro ch hch j hj
      rcases List.mem_append.mp hch with h | h
      · have := hI.closed_range ch h j hj; omega
      · simp only [List.mem_singleton] at h; subst h
        have := hI.current_range j hj; omega
    · intro ch hch
      rcases List.mem_append.mp hch with h | h
      · exact hI.closed_len ch h
      · simp only [List.mem_singleton] at h; subst h
        rw [hI.current_len]; exact hI.barrier_eq hpc
    · push_cast; omega
    · intro _; push_cast; omega
    · intro hp; simp at hp
    · rintro (hp | hp) <;> simp at hp
    · intro _; exact hrun
    · have := hI.launched_eq
      simp only [Sched.launched] at this ⊢
      rw [← this]; simp
  · rename_i hpc
    simp only [Option.some.injEq] at h
    subst h
    constructor <;> simp only
    · exact hI.wg_eq
    · exact hI.running_le
    · exact hI.running_sub
    · exact hI.current_len
    · exact hI.current_range
    · exact hI.closed_range
    · exact hI.closed_len
    · exact hI.count_le
    · intro hp; simp at hp
    · intro hp; simp at hp
    · intro _; exact hI.done_pending (Or.inl hpc)
    · intro _; exact hrun
    · exact hI.launched_eq
  · simp at h

theorem Inv.step {cfg : Config} {files : List PathName} {out : Nat → Outcome}
    {s s1 : Sched} {a : Action} (hC : 1 ≤ cfg.concurrentWorkers) (hI : Inv cfg files s)
    (h : step cfg out s a = some s1) : Inv cfg files s1 := by
  cases a with
  | launch => exact hI.launch h
  | loopEnd => exact hI.loopEnd h
  | finish j => exact hI.finish h
  | waitReturn => exact hI.waitReturn hC h

theorem Inv.exec {cfg : Config} {files : List PathName} {out : Nat → Outcome}
    (hC : 1 ≤ cfg.concurrentWorkers) (acts : List Action) :
    ∀ {s s1 : Sched}, Inv cfg files s → exec cfg out s acts = some s1 → Inv cfg files s1 := by
  induction acts with
  | nil =>
    intro s s1 hI h
    simp only [Aresize.exec, Option.some.injEq] at h
    subst h; exact hI
  | cons a as ih =>
    intro s s1 hI h
    simp only [Aresize.exec] at h
    split at h
    · simp at h
    · rename_i s2 hs2
      exact ih (hI.step hC hs2) h

/-- Every reachable state satisfies the invariant. -/
theorem Inv.reachable {cfg : Config} {files : List PathName} {out : Nat → Outcome}
    {fs : FileSystem} (hC : 1 ≤ cfg.concurrentWorkers) {acts : List Action} {s : Sched}
    (h : Aresize.exec cfg out (Sched.init files fs) acts = some s) : Inv cfg files s :=
  Inv.exec hC acts (Inv.init cfg files fs hC) h

theorem exec_append (cfg : Config) (out : Nat → Outcome) (as bs : List Action) :
    ∀ s : Sched, exec cfg out s (as ++ bs) = (exec cfg out s as).bind fun s1 => exec cfg out s1 bs := by
  induction as with
  | nil => intro s; simp [exec]
  | cons a as ih =>
    intro s
    simp only [List.cons_append, exec]
    cases step cfg out s a with
    | none => simp
    | some s1 => simp [ih]

theorem step_launch_some (cfg : Config) (out : Nat → Outcome) (s : Sched) (p : PathName)
    (rest : List PathName) (hpc : s.pc = .loop) (hp : s.pending = p :: rest) :
    ∃ s1, step cfg out s .launch = some s1 ∧ s1.pending = rest ∧
      (s1.pc = .loop ∨ s1.pc = .barrier) := by
  simp only [step, hpc, hp]
  refine ⟨_, rfl, rfl, ?_⟩
  simp only
  split_ifs
  · exact Or.inr rfl
  · exact Or.inl rfl

theorem step_loopEnd_some (cfg : Config) (out : Nat → Outcome) (s : Sched)
    (hpc : s.pc = .loop) (hp : s.pending = []) :
    ∃ s1, step cfg out s .loopEnd = some s1 ∧ s1.pc = .finalWait := by
  simp only [step, hpc, hp]
  exact ⟨_, rfl, rfl⟩

theorem step_wait_barrier (cfg : Config) (out : Nat → Outcome) (s : Sched)
    (hpc : s.pc = .barrier) (hwg : s.wg = 0) :
    ∃ s1, step cfg out s .waitReturn = some s1 ∧ s1.pc = .loop ∧ s1.pending = s.pending := by
  simp only [step, hpc, hwg, if_true]
  exact ⟨_, rfl, rfl, rfl⟩

theorem step_wait_final (cfg : Config) (out : Nat → Outcome) (s : Sched)
    (hpc : s.pc = .finalWait) (hwg : s.wg = 0) :
    ∃ s1, step cfg out s .waitReturn = some s1 ∧ s1.pc = .exited := by
  simp only [step, hpc, hwg, if_true]
  exact ⟨_, rfl, rfl⟩

theorem step_finish_some (cfg : Config) (out : Nat → Outcome) (s : Sched) (j : Job)
    (tl : List Job) (hr : s.running = j :: tl) :
    ∃ s1, step cfg out s (.finish j) = some s1 ∧ s1.running = tl ∧ s1.pc = s.pc ∧
      s1.pending = s.pending := by
  have hj : j ∈ s.running := by rw [hr]; simp
  simp only [step, hj, if_true]
  refine ⟨_, rfl, ?_, rfl, rfl⟩
  simp [hr]

/-- Every running goroutine can finish: from any state of the invariant a state without
running goroutines is reached, the main goroutine staying where it is. -/
theorem drain {cfg : Config} {files : List PathName} (out : Nat → Outcome)
    (hC : 1 ≤ cfg.concurrentWorkers) :
    ∀ (n : Nat) (s : Sched), Inv cfg files s → s.running.length = n →
      ∃ acts s1, exec cfg out s acts = some s1 ∧ Inv cfg files s1 ∧ s1.wg = 0 ∧
        s1.pc = s.pc ∧ s1.pending = s.pending := by
  intro n
  induction n with
  | zero =>
    intro s hI hn
    refine ⟨[], s, rfl, hI, ?_, rfl, rfl⟩
    rw [hI.wg_eq, hn]; rfl
  | succ n ih =>
    intro s hI hn
    match hr : s.running with
    | [] => rw [hr] at hn; simp at hn
    | j :: tl =>
      obtain ⟨s1, hs1, hrun, hpc, hpend⟩ := step_finish_some cfg out s j tl hr
      have hI1 := hI.step hC hs1
      have hn1 : s1.running.length = n := by
        rw [hrun]; rw [hr] at hn; simpa using hn
      obtain ⟨acts, s2, hex, hI2, hwg, hpc2, hpend2⟩ := ih s1 hI1 hn1
      refine ⟨.finish j :: acts, s2, ?_, hI2, hwg, hpc2.trans hpc, hpend2.trans hpend⟩
      simp [exec, hs1, hex]

/-- From the head of the loop the batch can run to the end of `main`. -/
theorem loop_reaches_exit {cfg : Config} {files : List PathName} (out : Nat → Outcome)
    (hC : 1 ≤ cfg.concurrentWorkers) :
    ∀ (n : Nat) (s : Sched), Inv cfg files s → s.pending.length = n → s.pc = .loop →
      ∃ acts s1, exec cfg out s acts = some s1 ∧ s1.pc = .exited := by
  intro n
  induction n with
  | zero =>
    intro s hI hn hpc
    have hp : s.pending = [] := List.length_eq_zero.mp hn
    obtain ⟨s1, hs1, hpc1⟩ := step_loopEnd_some cfg out s hpc hp
    have hI1 := hI.step hC hs1
    obtain ⟨acts, s2, hex, hI2, hwg, hpc2, -⟩ := drain out hC _ s1 hI1 rfl
    obtain ⟨s3, hs3, hpc3⟩ := step_wait_final cfg out s2 (hpc2.trans hpc1) hwg
    refine ⟨.loopEnd :: (acts ++ [.waitReturn]), s3, ?_, hpc3⟩
    simp [exec, hs1, exec_append, hex, hs3]
  | succ n ih =>
    intro s hI hn hpc
    match hp : s.pending with
    | [] => rw [hp] at hn; simp at hn
    | p :: rest =>
      obtain ⟨s1, hs1, hpend1, hpc1⟩ := step_launch_some cfg out s p rest hpc hp
      have hI1 := hI.step hC hs1
      have hn1 : s1.pending.length = n := by
        rw [hpend1]; rw [hp] at hn; simpa using hn
      rcases hpc1 with hl | hb
      · obtain ⟨acts, s2, hex, hpc2⟩ := ih s1 hI1 hn1 hl
        exact ⟨.launch :: acts, s2, by simp [exec, hs1, hex], hpc2⟩
      · obtain ⟨acts, s2, hex, hI2, hwg, hpc2, hpend2⟩ := drain out hC _ s1 hI1 rfl
        obtain ⟨s3, hs3, hpc3, hpend3⟩ := step_wait_barrier cfg out s2 (hpc2.trans hb) hwg
        have hI3 := hI2.step hC hs3
        have hn3 : s3.pending.length = n := by rw [hpend3, hpend2]; exact hn1
        obtain ⟨acts4, s4, hex4, hpc4⟩ := ih s3 hI3 hn3 hpc3
        refine ⟨.launch :: (acts ++ .waitReturn :: acts4), s4, ?_, hpc4⟩
        simp [exec, hs1, exec_append, hex, hs3, hex4]

/-- From every state of the invariant in which `main` has not been terminated by
`log.Fatalf` the batch can run to the end of `main`. -/
theorem reaches_exit {cfg : Config} {files : List PathName} (out : Nat → Outcome)
    (hC : 1 ≤ cfg.concurrentWorkers) (s : Sched) (hI : Inv cfg files s)
    (hnf : s.pc ≠ .fatal) :
    ∃ acts s1, exec cfg out s acts = some s1 ∧ s1.pc = .exited := by
  match hpc : s.pc with
  | .loop => exact loop_reaches_exit out hC _ s hI rfl hpc
  | .barrier =>
    obtain ⟨acts, s2, hex, hI2, hwg, hpc2, -⟩ := drain out hC _ s hI rfl
    obtain ⟨s3, hs3, hpc3, -⟩ := step_wait_barrier cfg out s2 (hpc2.trans hpc) hwg
    obtain ⟨acts4, s4, hex4, hpc4⟩ := loop_reaches_exit out hC _ s3 (hI2.step hC hs3) rfl hpc3
    refine ⟨acts ++ .waitReturn :: acts4, s4, ?_, hpc4⟩
    simp [exec, exec_append, hex, hs3, hex4]
  | .finalWait =>
    obtain ⟨acts, s2, hex, hI2, hwg, hpc2, -⟩ := drain out hC _ s hI rfl
    obtain ⟨s3, hs3, hpc3⟩ := step_wait_final cfg out s2 (hpc2.trans hpc) hwg
    refine ⟨acts ++ [.waitReturn], s3, ?_, hpc3⟩
    simp [exec, exec_append, hex, hs3]
  | .exited => exact ⟨[], s, rfl, hpc⟩
  | .fatal => exact absurd hpc hnf

theorem step_not_fatal {cfg : Config} {out : Nat → Outcome} {s s1 : Sched} {a : Action}
    (h : step cfg out s a = some s1) (hnf : s.pc ≠ .fatal) : s1.pc ≠ .fatal := by
  cases a with
  | launch =>
    simp only [step] at h
    split at h
    · simp only [Option.some.injEq] at h; subst h; simp only; split_ifs <;> simp
    · simp at h
  | loopEnd =>
    simp only [step] at h
    split at h
    · simp only [Option.some.injEq] at h; subst h; simp
    · simp at h
  | finish j =>
    simp only [step] at h
    split_ifs at h
    simp only [Option.some.injEq] at h; subst h; exact hnf
  | waitReturn =>
    simp only [step] at h
    split_ifs at h
    split at h
    · simp only [Option.some.injEq] at h; subst h; simp
    · simp only [Option.some.injEq] at h; subst h; simp
    · simp at h

theorem exec_not_fatal {cfg : Config} {out : Nat → Outcome} (acts : List Action) :
    ∀ {s s1 : Sched}, exec cfg out s acts = some s1 → s.pc ≠ .fatal → s1.pc ≠ .fatal := by
  induction acts with
  | nil =>
    intro s s1 h hnf
    simp only [exec, Option.some.injEq] at h
    subst h; exact hnf
  | cons a as ih =>
    intro s s1 h hnf
    simp only [exec] at h
    split at h
    · simp at h
    · rename_i s2 hs2
      exact ih h (step_not_fatal hs2 hnf)

theorem map_src_jobsFrom (pre : String) (ps : List PathName) :
    ∀ n, (jobsFrom pre n ps).map Job.src = ps := by
  induction ps with
  | nil => intro n; rfl
  | cons p ps ih => intro n; simp [jobsFrom, ih]

theorem map_fileCount_jobsFrom (pre : String) (ps : List PathName) :
    ∀ n, (jobsFrom pre n ps).map Job.fileCount = List.range' n ps.length := by
  induction ps with
  | nil => intro n; rfl
  | cons p ps ih => intro n; simp [jobsFrom, ih, List.range'_succ]

theorem flatten_chunks (s : Sched) : s.chunks.flatten = s.launched := by
  unfold Sched.chunks Sched.launched
  split_ifs with h
  · simp [h]
  · simp

/-- C4: in every state the dispatch loop can reach with a concurrency limit of at least
one, at most that many goroutines are running, the WaitGroup counter is their number, and
at most that many jobs have been launched since `wg.Wait` last returned; every job of a
chunk that a returning `wg.Wait` has closed has completed, the running jobs all belong to
the chunk being filled, and `wg.Wait` returns only when no goroutine is running; so no
job of a later chunk is launched before the barrier has seen the earlier chunk
complete. -/
theorem dispatch_concurrency_bound (cfg : Config) (out : Nat → Outcome)
    (files : List PathName) (fs : FileSystem) (acts : List Action) (s : Sched)
    (hC : 1 ≤ cfg.concurrentWorkers)
    (h : exec cfg out (Sched.init files fs) acts = some s) :
    (s.running.length : Int) ≤ cfg.concurrentWorkers ∧
      s.wg = (s.running.length : Int) ∧
      (s.currentCount : Int) ≤ cfg.concurrentWorkers ∧
      (∀ ch ∈ s.closed, ∀ j ∈ ch, j ∉ s.running) ∧
      (∀ j ∈ s.running, j ∈ s.current) ∧
      (∀ s1, step cfg out s .waitReturn = some s1 → s.running = []) ∧
      (∀ s1, step cfg out s .launch = some s1 →
        (s1.running.length : Int) ≤ cfg.concurrentWorkers ∧
        ∀ ch ∈ s.closed, ∀ j ∈ ch, j ∉ s1.running) := by
  have hI : Inv cfg files s := Inv.reachable hC h
  have disj : ∀ t : Sched, Inv cfg files t → ∀ ch ∈ t.closed, ∀ j ∈ ch, j ∉ t.running := by
    intro t hT ch hch j hj hrun
    have h1 := hT.closed_range ch hch j hj
    have h2 := (hT.current_range j (hT.running_sub j hrun)).1
    omega
  have bound : ∀ t : Sched, Inv cfg files t →
      (t.running.length : Int) ≤ cfg.concurrentWorkers := by
    intro t hT
    have h1 := hT.running_le
    have h2 := hT.count_le
    omega
  refine ⟨bound s hI, hI.wg_eq, hI.count_le, disj s hI, hI.running_sub, ?_, ?_⟩
  · intro s1 hs1
    simp only [step] at hs1
    split_ifs at hs1 with hwg
    have := hI.wg_eq
    rw [hwg] at this
    exact List.length_eq_zero.mp (by omega)
  · intro s1 hs1
    have hI1 := hI.step hC hs1
    refine ⟨bound s1 hI1, ?_⟩
    intro ch hch
    have hcl : s1.closed = s.closed := by
      simp only [step] at hs1
      split at hs1
      · simp only [Option.some.injEq] at hs1; subst hs1; rfl
      · simp at hs1
    exact disj s1 hI1 ch (hcl ▸ hch)

/-- C4 in the example batch after two launches with a limit of two: two goroutines are
running and the counter is two. -/
theorem dispatch_concurrency_bound_witness :
    ∃ s, exec exampleConfig exampleOutcome (Sched.init exampleFiles exampleFs)
        exampleTwoLaunches = some s ∧
      (1 : Int) ≤ exampleConfig.concurrentWorkers ∧
      s.running.length = 2 ∧
      (s.running.length : Int) ≤ exampleConfig.concurrentWorkers ∧
      s.wg = (s.running.length : Int) := by
  have hlen : (exec exampleConfig exampleOutcome (Sched.init exampleFiles exampleFs)
      exampleTwoLaunches).map (fun s => s.running.length) = some 2 := by decide
  obtain ⟨s, heq⟩ := Option.isSome_iff_exists.mp
    (show (exec exampleConfig exampleOutcome (Sched.init exampleFiles exampleFs)
      exampleTwoLaunches).isSome = true by decide)
  have hthm := dispatch_concurrency_bound exampleConfig exampleOutcome exampleFiles
    exampleFs exampleTwoLaunches s (by decide) heq
  rw [heq] at hlen
  exact ⟨s, heq, by decide, by simpa using hlen, hthm.1, hthm.2.1⟩

/-- C9: for a non-empty list of files and a concurrency limit of at least one, whatever
the outcome of each job: at every moment the jobs launched so far are the first files of
the list, each launched once and in order, grouped into consecutive non-empty chunks of
at most the limit, every chunk but possibly the last of exactly the limit; the batch can
always run on to the end of `main`; and when `main` has returned, every file has been
launched exactly once, in the order of the list, and no goroutine is left running. -/
theorem dispatch_launches_each_file_once (cfg : Config) (out : Nat → Outcome)
    (files : List PathName) (fs : FileSystem) (acts : List Action) (s : Sched)
    (hC : 1 ≤ cfg.concurrentWorkers) (hne : files ≠ [])
    (h : exec cfg out (Sched.init files fs) acts = some s) :
    s.launched ++ jobsFrom cfg.pre s.fileCount s.pending = jobsFrom cfg.pre 1 files ∧
      s.chunks.flatten = s.launched ∧
      (∀ ch ∈ s.chunks, ch ≠ [] ∧ (ch.length : Int) ≤ cfg.concurrentWorkers) ∧
      (∀ ch ∈ s.chunks.dropLast, (ch.length : Int) = cfg.concurrentWorkers) ∧
      (∃ acts1 s1, exec cfg out s acts1 = some s1 ∧ s1.pc = .exited) ∧
      (s.pc = .exited →
        s.launched = jobsFrom cfg.pre 1 files ∧
        s.launched.map Job.src = files ∧
        s.launched.map Job.fileCount = List.range' 1 files.length ∧
        s.running = []) := by
  have hI : Inv cfg files s := Inv.reachable hC h
  have hnf0 : (Sched.init files fs).pc ≠ .fatal := by
    have : ¬ files.length ≤ 0 := by
      cases files with
      | nil => exact absurd rfl hne
      | cons p ps => simp
    simp [Sched.init, this]
  have hnf : s.pc ≠ .fatal := exec_not_fatal acts h hnf0
  have hclosed : ∀ ch ∈ s.closed, ch ≠ [] ∧ (ch.length : Int) ≤ cfg.concurrentWorkers := by
    intro ch hch
    have hl := hI.closed_len ch hch
    refine ⟨?_, by omega⟩
    intro he
    rw [he] at hl
    simp at hl
    omega
  refine ⟨hI.launched_eq, flatten_chunks s, ?_, ?_, reaches_exit out hC s hI hnf, ?_⟩
  · intro ch hch
    unfold Sched.chunks at hch
    split_ifs at hch with hcur
    · exact hclosed ch hch
    · rcases List.mem_append.mp hch with hm | hm
      · exact hclosed ch hm
      · simp only [List.mem_singleton] at hm
        subst hm
        refine ⟨hcur, ?_⟩
        rw [hI.current_len]; exact hI.count_le
  · intro ch hch
    unfold Sched.chunks at hch
    split_ifs at hch with hcur
    · exact hI.closed_len ch (List.mem_of_mem_dropLast hch)
    · rw [List.dropLast_concat] at hch
      exact hI.closed_len ch hch
  · intro hpc
    have hp := hI.done_pending (Or.inr hpc)
    have hl : s.launched = jobsFrom cfg.pre 1 files := by
      have := hI.launched_eq
      rw [hp] at this
      simpa [jobsFrom] using this
    refine ⟨hl, ?_, ?_, hI.done_running (Or.inl hpc)⟩
    · rw [hl]; exact map_src_jobsFrom _ _ _
    · rw [hl]; exact map_fileCount_jobsFrom _ _ _

/-- C9 in the example batch of three files with a limit of two: the complete run ends
with `main` returned, the chunks are the first two jobs and then the third, although the
second and the third job failed to open their source. -/
theorem dispatch_launches_each_file_once_witness :
    ∃ s, exec exampleConfig exampleOutcome (Sched.init exampleFiles exampleFs)
        exampleRun = some s ∧
      (1 : Int) ≤ exampleConfig.concurrentWorkers ∧ exampleFiles ≠ [] ∧
      s.pc = .exited ∧
      s.chunks.map (fun ch => ch.map Job.fileCount) = [[1, 2], [3]] ∧
      s.launched.map Job.src = exampleFiles := by
  have hpc : (exec exampleConfig exampleOutcome (Sched.init exampleFiles exampleFs)
      exampleRun).map (fun s => s.pc) = some PC.exited := by decide
  have hch : (exec exampleConfig exampleOutcome (Sched.init exampleFiles exampleFs)
      exampleRun).map (fun s => s.chunks.map (fun ch => ch.map Job.fileCount))
        = some [[1, 2], [3]] := by decide
  obtain ⟨s, heq⟩ := Option.isSome_iff_exists.mp
    (show (exec exampleConfig exampleOutcome (Sched.init exampleFiles exampleFs)
      exampleRun).isSome = true by decide)
  have hthm := dispatch_launches_each_file_once exampleConfig exampleOutcome exampleFiles
    exampleFs exampleRun s (by decide) (by decide) heq
  rw [heq] at hpc hch
  have hpc1 : s.pc = .exited := by simpa using hpc
  exact ⟨s, heq, by decide, by decide, hpc1, by simpa using hch, (hthm.2.2.2.2.2 hpc1).2.1⟩

end Aresize
